import Mathlib

/-!
# Verification of the PGURE-SVT denoising core

This development embeds the core numerical pipeline of the PGURE-SVT
image-sequence denoiser and proves/refutes the specified properties.

Embedded components (shallow embedding, translated from the C++ sources):

* the patch-origin index computation of `SVT::Decompose` (svt.hpp), the
  decoding convention of patch indices used by `MotionEstimator` (arps.hpp),
  and the weight accumulation of `SVT::Reconstruct`;
* the singular-value thresholding of `SVT::Reconstruct` (plain and
  exponentially weighted), over real-valued SVD triples;
* the per-patch Adaptive Rood Pattern Search (LDSP + SDSP stages) of
  `MotionEstimator::ARPSMotionEstimation` (arps.hpp), with block costs in ℚ
  (machine doubles are modelled by exact rationals);
* the parameter extraction / validation / per-window lambda handling and the
  final output normalization of `main` (PGURE-SVT-bin.cpp).

The frames of a sequence are square (`main` rejects non-square frames), so the
grid embedding uses a single edge length `Nx` for both dimensions, exactly as
the instantiated C++ runs with `Nx = Ny`.
-/

/-! ## Patch grid of `SVT::Decompose` (svt.hpp)

`Decompose` builds patch indices with `nxMbs = Nx - blockSize`,
`nyMbs = Ny - blockSize` and collects

* `firstPatches`: `i * nyMbs + j` for `i, j` multiples of `blockOverlap`
  below `1 + nyMbs` (resp. `1 + nxMbs`),
* `patchesBottomEdge`: `(nyMbs + 1) * i + nxMbs`,
* `patchesRightEdge`: `(nyMbs + 1) * nxMbs + i`,

then sorts the deduplicated concatenation.  A patch index `p` decodes to the
pixel origin `(row, col) = (p % (1 + nyMbs), p / (1 + nxMbs))` — the
convention used when `MotionEstimator::Estimate` populates the reference
frame coordinates and when `Decompose`/`Reconstruct` extract blocks. -/

/-- The loop `for (i = 0; i < 1 + n; i += Bo)`: multiples of `Bo` up to `n`. -/
def strided (n Bo : ℕ) : List ℕ :=
  (List.range (n / Bo + 1)).map (· * Bo)

/-- `firstPatches` of `SVT::Decompose`: index `i * (Nx - Bs) + j` for strided
`i` (row loop) and `j` (column loop). -/
def firstPatches (Nx Bs Bo : ℕ) : List ℕ :=
  (strided (Nx - Bs) Bo).flatMap (fun i =>
    (strided (Nx - Bs) Bo).map (fun j => i * (Nx - Bs) + j))

/-- `patchesBottomEdge` of `SVT::Decompose`: `(nyMbs + 1) * i + nxMbs`. -/
def patchesBottomEdge (Nx Bs Bo : ℕ) : List ℕ :=
  (strided (Nx - Bs) Bo).map (fun i => (Nx - Bs + 1) * i + (Nx - Bs))

/-- `patchesRightEdge` of `SVT::Decompose`: `(nyMbs + 1) * nxMbs + i`. -/
def patchesRightEdge (Nx Bs Bo : ℕ) : List ℕ :=
  (strided (Nx - Bs) Bo).map (fun i => (Nx - Bs + 1) * (Nx - Bs) + i)

/-- The concatenation `joinPatches` of `SVT::Decompose` (grid, right edge,
bottom edge, in the source's order). -/
def joinPatches (Nx Bs Bo : ℕ) : List ℕ :=
  firstPatches Nx Bs Bo ++ patchesRightEdge Nx Bs Bo ++ patchesBottomEdge Nx Bs Bo

/-- `actualPatches`: the sorted unique patch indices
(`arma::sort(joinPatches.elem(arma::find_unique(joinPatches)))`). -/
def actualPatches (Nx Bs Bo : ℕ) : List ℕ :=
  ((joinPatches Nx Bs Bo).dedup).mergeSort (· ≤ ·)

/-- Row (`patches(0, ·, ref)`) of a patch index: `p % (1 + (Nx - Bs))`. -/
def patchRow (Nx Bs p : ℕ) : ℕ := p % (Nx - Bs + 1)

/-- Column (`patches(1, ·, ref)`) of a patch index: `p / (1 + (Nx - Bs))`. -/
def patchCol (Nx Bs p : ℕ) : ℕ := p / (Nx - Bs + 1)

/-- Patch `p` (a `Bs × Bs` tile at its decoded origin) covers pixel `(r, c)`. -/
def coversPix (Nx Bs p r c : ℕ) : Prop :=
  patchRow Nx Bs p ≤ r ∧ r < patchRow Nx Bs p + Bs ∧
    patchCol Nx Bs p ≤ c ∧ c < patchCol Nx Bs p + Bs

instance (Nx Bs p r c : ℕ) : Decidable (coversPix Nx Bs p r c) := by
  unfold coversPix; infer_instance

/-- The weight accumulator of `SVT::Reconstruct` at one pixel of one frame:
each patch adds a unit (`weightsInc`) over the `Bs × Bs` region at its (frame
dependent) location, so the accumulated weight is the number of patch
locations covering the pixel. -/
def weightCount (locs : List (ℤ × ℤ)) (Bs : ℕ) (r c : ℤ) : ℕ :=
  (locs.filter (fun yx =>
    decide (yx.1 ≤ r ∧ r < yx.1 + Bs ∧ yx.2 ≤ c ∧ c < yx.2 + Bs))).length

/-- The patch locations of a frame whose motion field is the identity (the
reference frame's `patches(·, ·, ref)` coordinates): the decoded grid. -/
def gridLocs (Nx Bs Bo : ℕ) : List (ℤ × ℤ) :=
  (actualPatches Nx Bs Bo).map (fun p => ((patchRow Nx Bs p : ℤ), (patchCol Nx Bs p : ℤ)))

/-! ### Arithmetic of the patch index encoding -/

theorem mem_strided (n Bo k : ℕ) (hBo : 0 < Bo) (h : k * Bo ≤ n) :
    k * Bo ∈ strided n Bo := by
  unfold strided
  refine List.mem_map.mpr ⟨k, List.mem_range.mpr ?_, rfl⟩
  have := (Nat.le_div_iff_mul_le hBo).mpr h
  omega

theorem mem_actualPatches (Nx Bs Bo p : ℕ) (h : p ∈ joinPatches Nx Bs Bo) :
    p ∈ actualPatches Nx Bs Bo := by
  unfold actualPatches
  rw [List.mem_mergeSort, List.mem_dedup]
  exact h

theorem patchRow_decode (Nx Bs q t : ℕ) (ht : t ≤ Nx - Bs) :
    patchRow Nx Bs ((Nx - Bs + 1) * q + t) = t := by
  unfold patchRow
  rw [Nat.mul_add_mod]
  exact Nat.mod_eq_of_lt (by omega)

theorem patchCol_decode (Nx Bs q t : ℕ) (ht : t ≤ Nx - Bs) :
    patchCol Nx Bs ((Nx - Bs + 1) * q + t) = q := by
  unfold patchCol
  rw [add_comm, Nat.add_mul_div_left _ _ (by omega : 0 < Nx - Bs + 1),
    Nat.div_eq_of_lt (by omega), Nat.zero_add]

/-- A run of blocks at origins `Bo * k`, `k ≤ M`, with stride `Bo ≤ Bs`,
covers every coordinate below `Bo * M + Bs`: the block whose origin is
`Bo * min (c / Bo) M` contains `c`. -/
theorem stride_cover (Bo Bs M c : ℕ) (hBo : 0 < Bo) (hBoBs : Bo ≤ Bs)
    (hc : c < Bo * M + Bs) :
    Bo * min (c / Bo) M ≤ c ∧ c < Bo * min (c / Bo) M + Bs := by
  have hdm : Bo * (c / Bo) + c % Bo = c := Nat.div_add_mod c Bo
  have hm : c % Bo < Bo := Nat.mod_lt c hBo
  rcases le_total (c / Bo) M with h | h
  · rw [min_eq_left h]; omega
  · rw [min_eq_right h]
    have h2 : Bo * M ≤ Bo * (c / Bo) := Nat.mul_le_mul_left Bo h
    omega

/-- The interior (`firstPatches`) indices `i * n + j` with `j < i` decode to
the "skew" origins: row `n + 1 - Bo*e`, column `Bo*a' - 1` (stated
additively), for any `1 ≤ e ≤ a' ≤ M`. -/
theorem firstPatches_skew_mem (Nx Bs Bo M a' e : ℕ) (hBo : 0 < Bo)
    (hM : Nx - Bs = Bo * M) (he1 : 1 ≤ e) (hea : e ≤ a') (ha'M : a' ≤ M) :
    ∃ p ∈ actualPatches Nx Bs Bo,
      patchRow Nx Bs p + Bo * e = (Nx - Bs) + 1 ∧
      patchCol Nx Bs p + 1 = Bo * a' := by
  obtain ⟨v, hv⟩ : ∃ v, a' = e + v := ⟨a' - e, by omega⟩
  obtain ⟨z, hz⟩ : ∃ z, M = e + z := ⟨M - e, by omega⟩
  have hBoe : 1 ≤ Bo * e := Nat.one_le_iff_ne_zero.mpr (by positivity)
  obtain ⟨g, hg⟩ : ∃ g, Bo * e = g + 1 := ⟨Bo * e - 1, by omega⟩
  have hn2 : Nx - Bs = g + 1 + Bo * z := by
    rw [hM, hz, Nat.mul_add, hg]
  have hp : (Bo * e + Bo * v) * (Nx - Bs) + Bo * v =
      ((Nx - Bs) + 1) * (g + Bo * v) + (Bo * z + 1) := by
    rw [hg, hn2]; ring
  refine ⟨(Bo * e + Bo * v) * (Nx - Bs) + Bo * v,
    mem_actualPatches _ _ _ _ ?_, ?_, ?_⟩
  · unfold joinPatches firstPatches
    refine List.mem_append.mpr (Or.inl (List.mem_append.mpr (Or.inl ?_)))
    refine List.mem_flatMap.mpr ⟨Bo * e + Bo * v, ?_, ?_⟩
    · have : (e + v) * Bo ∈ strided (Nx - Bs) Bo := by
        refine mem_strided _ _ _ hBo ?_
        have : (e + v) * Bo ≤ M * Bo := Nat.mul_le_mul_right Bo (by omega)
        rw [hM, Nat.mul_comm Bo M]; omega
      rw [Nat.add_mul, Nat.mul_comm e Bo, Nat.mul_comm v Bo] at this
      exact this
    · refine List.mem_map.mpr ⟨Bo * v, ?_, rfl⟩
      have : v * Bo ∈ strided (Nx - Bs) Bo := by
        refine mem_strided _ _ _ hBo ?_
        have : v * Bo ≤ M * Bo := Nat.mul_le_mul_right Bo (by omega)
        rw [hM, Nat.mul_comm Bo M]; omega
      rwa [Nat.mul_comm v Bo] at this
  · rw [hp, patchRow_decode _ _ _ _ (by omega)]
    omega
  · rw [hp, patchCol_decode _ _ _ _ (by omega)]
    have : Bo * a' = Bo * e + Bo * v := by rw [hv, Nat.mul_add]
    omega

/-- Coverage of the decomposed patch set: with `1 ≤ Bo ≤ Bs ≤ Nx` and
`Bo ∣ (Nx - Bs)`, every pixel of the frame lies in at least one patch of
`actualPatches`. -/
theorem actualPatches_cover (Nx Bs Bo r c : ℕ) (hBo : 1 ≤ Bo) (hBoBs : Bo ≤ Bs)
    (hBsN : Bs ≤ Nx) (hdvd : Bo ∣ (Nx - Bs)) (hr : r < Nx) (hc : c < Nx) :
    ∃ p ∈ actualPatches Nx Bs Bo, coversPix Nx Bs p r c := by
  obtain ⟨M, hM⟩ := hdvd
  have hBo0 : 0 < Bo := hBo
  rcases le_or_lt (Nx - Bs) r with hbot | hrn
  · -- the bottom-edge patches cover all pixels with `Nx - Bs ≤ r`
    obtain ⟨h1, h2⟩ := stride_cover Bo Bs M c hBo0 hBoBs (by omega)
    refine ⟨(Nx - Bs + 1) * (Bo * min (c / Bo) M) + (Nx - Bs),
      mem_actualPatches _ _ _ _ ?_, ?_⟩
    · unfold joinPatches patchesBottomEdge
      refine List.mem_append.mpr (Or.inr
        (List.mem_map.mpr ⟨Bo * min (c / Bo) M, ?_, rfl⟩))
      have hql : (min (c / Bo) M) * Bo ∈ strided (Nx - Bs) Bo := by
        refine mem_strided _ _ _ hBo0 ?_
        have := Nat.mul_le_mul_right Bo (min_le_right (c / Bo) M)
        rw [hM, Nat.mul_comm Bo M]; omega
      rwa [Nat.mul_comm] at hql
    · unfold coversPix
      rw [patchRow_decode _ _ _ _ (le_refl _), patchCol_decode _ _ _ _ (le_refl _)]
      omega
  · rcases le_or_lt (Nx - Bs) c with hright | hcn
    · -- the right-edge patches cover all pixels with `Nx - Bs ≤ c`
      obtain ⟨h1, h2⟩ := stride_cover Bo Bs M r hBo0 hBoBs (by omega)
      have htle : Bo * min (r / Bo) M ≤ Nx - Bs := by
        have := Nat.mul_le_mul_left Bo (min_le_right (r / Bo) M)
        omega
      refine ⟨(Nx - Bs + 1) * (Nx - Bs) + (Bo * min (r / Bo) M),
        mem_actualPatches _ _ _ _ ?_, ?_⟩
      · unfold joinPatches patchesRightEdge
        refine List.mem_append.mpr (Or.inl (List.mem_append.mpr (Or.inr
          (List.mem_map.mpr ⟨Bo * min (r / Bo) M, ?_, rfl⟩))))
        have hql : (min (r / Bo) M) * Bo ∈ strided (Nx - Bs) Bo := by
          refine mem_strided _ _ _ hBo0 ?_
          have := Nat.mul_le_mul_right Bo (min_le_right (r / Bo) M)
          rw [hM, Nat.mul_comm Bo M]; omega
        rwa [Nat.mul_comm] at hql
      · unfold coversPix
        rw [patchRow_decode _ _ _ _ htle, patchCol_decode _ _ _ _ htle]
        omega
    · -- interior pixel: `r < Nx - Bs` and `c < Nx - Bs`
      obtain ⟨d, ρ, hdr, hρB⟩ : ∃ d ρ, Bo * d + ρ = r ∧ ρ < Bo :=
        ⟨r / Bo, r % Bo, Nat.div_add_mod r Bo, Nat.mod_lt r hBo0⟩
      obtain ⟨a, γ, hca, hγB⟩ : ∃ a γ, Bo * a + γ = c ∧ γ < Bo :=
        ⟨c / Bo, c % Bo, Nat.div_add_mod c Bo, Nat.mod_lt c hBo0⟩
      have hdM : d < M := by
        by_contra h
        push_neg at h
        have := Nat.mul_le_mul_left Bo h
        omega
      have haM : a < M := by
        by_contra h
        push_neg at h
        have := Nat.mul_le_mul_left Bo h
        omega
      rcases le_or_lt (d + a) M with hsum | hsum
      · -- grid point `(Bo*d, Bo*a)` from the `j ≥ i` half of `firstPatches`
        have htd : Bo * d ≤ Nx - Bs := by
          have := Nat.mul_le_mul_left Bo (le_of_lt hdM)
          omega
        refine ⟨(Nx - Bs + 1) * (Bo * a) + Bo * d,
          mem_actualPatches _ _ _ _ ?_, ?_⟩
        · unfold joinPatches firstPatches
          refine List.mem_append.mpr (Or.inl (List.mem_append.mpr (Or.inl ?_)))
          refine List.mem_flatMap.mpr ⟨Bo * a, ?_, ?_⟩
          · have hql : a * Bo ∈ strided (Nx - Bs) Bo := by
              refine mem_strided _ _ _ hBo0 ?_
              have := Nat.mul_le_mul_right Bo (le_of_lt haM)
              rw [hM, Nat.mul_comm Bo M]; omega
            rwa [Nat.mul_comm] at hql
          · refine List.mem_map.mpr ⟨Bo * (a + d), ?_, by ring⟩
            have hql : (a + d) * Bo ∈ strided (Nx - Bs) Bo := by
              refine mem_strided _ _ _ hBo0 ?_
              have := Nat.mul_le_mul_right Bo (by omega : a + d ≤ M)
              rw [hM, Nat.mul_comm Bo M]; omega
            rwa [Nat.mul_comm] at hql
        · unfold coversPix
          rw [patchRow_decode _ _ _ _ htd, patchCol_decode _ _ _ _ (by omega)]
          omega
      · -- skew point from the `j < i` half of `firstPatches`
        obtain ⟨u, hu, hu1⟩ : ∃ u, M = d + u ∧ 1 ≤ u := ⟨M - d, by omega, by omega⟩
        have hau : u + 1 ≤ a := by omega
        have hnd : Nx - Bs = Bo * d + Bo * u := by rw [hM, hu, Nat.mul_add]
        have haM1 : γ + 1 = Bo → a + 1 ≤ M := by
          intro hγb
          have hmul : Bo * (a + 1) = Bo * a + Bo := Nat.mul_succ Bo a
          have hle : Bo * (a + 1) ≤ Bo * M := by omega
          exact Nat.le_of_mul_le_mul_left hle hBo0
        rcases Nat.eq_zero_or_pos ρ with hρ0 | hρ1
        · rcases eq_or_lt_of_le (by omega : γ + 1 ≤ Bo) with hγb | hγb
          · -- ρ = 0, γ = Bo - 1: use e = u + 1, a' = a + 1
            obtain ⟨p, hmem, hrow, hcol⟩ := firstPatches_skew_mem Nx Bs Bo M
              (a + 1) (u + 1) hBo0 hM (by omega) (by omega) (haM1 hγb)
            have hmu : Bo * (u + 1) = Bo * u + Bo := Nat.mul_succ Bo u
            have hma : Bo * (a + 1) = Bo * a + Bo := Nat.mul_succ Bo a
            exact ⟨p, hmem, by unfold coversPix; omega⟩
          · -- ρ = 0, γ + 1 < Bo: use e = u + 1, a' = a
            obtain ⟨p, hmem, hrow, hcol⟩ := firstPatches_skew_mem Nx Bs Bo M
              a (u + 1) hBo0 hM (by omega) (by omega) (le_of_lt haM)
            have hmu : Bo * (u + 1) = Bo * u + Bo := Nat.mul_succ Bo u
            exact ⟨p, hmem, by unfold coversPix; omega⟩
        · rcases eq_or_lt_of_le (by omega : γ + 1 ≤ Bo) with hγb | hγb
          · -- ρ ≥ 1, γ = Bo - 1: use e = u, a' = a + 1
            obtain ⟨p, hmem, hrow, hcol⟩ := firstPatches_skew_mem Nx Bs Bo M
              (a + 1) u hBo0 hM hu1 (by omega) (haM1 hγb)
            have hma : Bo * (a + 1) = Bo * a + Bo := Nat.mul_succ Bo a
            exact ⟨p, hmem, by unfold coversPix; omega⟩
          · -- ρ ≥ 1, γ + 1 < Bo: use e = u, a' = a
            obtain ⟨p, hmem, hrow, hcol⟩ := firstPatches_skew_mem Nx Bs Bo M
              a u hBo0 hM hu1 (by omega) (le_of_lt haM)
            exact ⟨p, hmem, by unfold coversPix; omega⟩

/-- C1 (amended): for configurations with `1 ≤ blockOverlap ≤ blockSize ≤ Nx`
in which `blockOverlap` additionally divides `Nx - blockSize`, the set of
patches decomposed by `SVT::Decompose` covers every pixel of the frame, and
hence the weight accumulator of `SVT::Reconstruct` is ≥ 1 at every pixel of
every frame whose patch locations are the grid positions (in particular the
reference frame). -/
theorem patch_grid_coverage_and_weights (Nx Bs Bo r c : ℕ) (hBo : 1 ≤ Bo)
    (hBoBs : Bo ≤ Bs) (hBsN : Bs ≤ Nx) (hdvd : Bo ∣ (Nx - Bs))
    (hr : r < Nx) (hc : c < Nx) :
    (∃ p ∈ actualPatches Nx Bs Bo, coversPix Nx Bs p r c) ∧
    1 ≤ weightCount (gridLocs Nx Bs Bo) Bs (r : ℤ) (c : ℤ) := by
  obtain ⟨p, hmem, hcov⟩ := actualPatches_cover Nx Bs Bo r c hBo hBoBs hBsN hdvd hr hc
  refine ⟨⟨p, hmem, hcov⟩, ?_⟩
  unfold weightCount gridLocs
  have hmem2 : ((patchRow Nx Bs p : ℤ), (patchCol Nx Bs p : ℤ)) ∈
      (actualPatches Nx Bs Bo).map
        (fun p' => ((patchRow Nx Bs p' : ℤ), (patchCol Nx Bs p' : ℤ))) :=
    List.mem_map.mpr ⟨p, hmem, rfl⟩
  have hfil : ((patchRow Nx Bs p : ℤ), (patchCol Nx Bs p : ℤ)) ∈
      ((actualPatches Nx Bs Bo).map
        (fun p' => ((patchRow Nx Bs p' : ℤ), (patchCol Nx Bs p' : ℤ)))).filter
        (fun yx => decide (yx.1 ≤ (r : ℤ) ∧ (r : ℤ) < yx.1 + Bs ∧
          yx.2 ≤ (c : ℤ) ∧ (c : ℤ) < yx.2 + Bs)) := by
    refine List.mem_filter.mpr ⟨hmem2, ?_⟩
    obtain ⟨h1, h2, h3, h4⟩ := hcov
    simp only [decide_eq_true_eq]
    refine ⟨by exact_mod_cast h1, by exact_mod_cast h2, by exact_mod_cast h3,
      by exact_mod_cast h4⟩
  exact List.length_pos_of_mem hfil

/-- C1 witness instance: the amended coverage theorem applied at the
configuration `Nx = 8`, `Bs = 4`, `Bo = 4`, pixel `(7, 2)`. -/
theorem patch_grid_coverage_and_weights_witness :
    (1 ≤ 4 ∧ 4 ≤ 4 ∧ 4 ≤ 8 ∧ 4 ∣ (8 - 4) ∧ 7 < 8 ∧ 2 < 8) ∧
    ((∃ p ∈ actualPatches 8 4 4, coversPix 8 4 p 7 2) ∧
      1 ≤ weightCount (gridLocs 8 4 4) 4 (7 : ℤ) (2 : ℤ)) :=
  ⟨by decide,
    patch_grid_coverage_and_weights 8 4 4 7 2 (by decide) (by decide) (by decide)
      (by decide) (by decide) (by decide)⟩

/-- C1 counterexample: for `Nx = 8`, `blockSize = 4`, `blockOverlap = 3`
(`blockOverlap ≤ blockSize`, as the claim requires), pixel `(7, 7)` is
covered by no decomposed patch, so the weight accumulator of `Reconstruct`
is `0 < 1` there. -/
theorem patch_grid_coverage_cex :
    3 ≤ 4 ∧ (¬ ∃ p ∈ actualPatches 8 4 3, coversPix 8 4 p 7 7) ∧
    weightCount (gridLocs 8 4 3) 4 (7 : ℤ) (7 : ℤ) = 0 := by
  have hjoin : ∀ p ∈ joinPatches 8 4 3, ¬ coversPix 8 4 p 7 7 := by decide
  have hjoin2 : ∀ p ∈ joinPatches 8 4 3,
      ¬ ((patchRow 8 4 p : ℤ) ≤ 7 ∧ (7 : ℤ) < (patchRow 8 4 p : ℤ) + 4 ∧
        (patchCol 8 4 p : ℤ) ≤ 7 ∧ (7 : ℤ) < (patchCol 8 4 p : ℤ) + 4) := by decide
  refine ⟨by norm_num, ?_, ?_⟩
  · rintro ⟨p, hmem, hcov⟩
    rw [actualPatches, List.mem_mergeSort, List.mem_dedup] at hmem
    exact hjoin p hmem hcov
  · unfold weightCount gridLocs
    rw [List.length_eq_zero, List.filter_eq_nil_iff]
    intro yx hyx
    rw [List.mem_map] at hyx
    obtain ⟨p, hp, rfl⟩ := hyx
    rw [actualPatches, List.mem_mergeSort, List.mem_dedup] at hp
    simpa using hjoin2 p hp

/-! ## Parameter extraction, validation and per-window lambda handling of
`main` (PGURE-SVT-bin.cpp) -/

/-- The option bundle parsed from the parameter file: presence and value of
the options `main` reads (absent entries are `none`). -/
structure ProgramOptions where
  hasFilename : Bool
  hasStartImage : Bool
  hasEndImage : Bool
  startImage : ℤ
  endImage : ℤ
  patchSize : Option ℤ
  trajLength : Option ℤ
  pgure : Option Bool
  lambdaOpt : Option ℚ
  motionNbhd : Option ℤ
  medianSize : Option ℤ
  tolerance : Option ℚ
  patchOverlap : Option ℤ
  noiseMethod : Option ℤ

/-- The derived configuration with which `main` enters the window loop. -/
structure MainConfig where
  numImages : ℤ
  Bs : ℤ
  T : ℤ
  pgureOpt : Bool
  lambda : ℚ
  motionP : ℤ
  medianSize : ℤ
  tol : ℚ
  Bo : ℤ
  noiseMethod : ℤ

/-- `T = (Bs * Bs < T) ? (Bs * Bs) - 1 : T` (PGURE-SVT-bin.cpp line 135):
the silent clamp of `trajectory_length` against the block-pixel count. -/
def adjustT (Bs T : ℤ) : ℤ := if Bs * Bs < T then Bs * Bs - 1 else T

/-- The built-in PGURE stopping tolerance, `double tol = 1E-7`. -/
def defaultTol : ℚ := 1 / 10 ^ 7

/-- Lines 180–187 of `PGURE-SVT-bin.cpp`:
the configured tolerance is parsed into an inner `double tol` that shadows
the outer `tol`, so the parsed value is discarded and the tolerance later
passed to `Optimize` is the outer variable, still holding the default. -/
def tolForOptimize (tolOpt : Option ℚ) : ℚ :=
  match tolOpt with
  | none => defaultTol
  | some _parsedIntoInnerShadowedTol => defaultTol

/-- The early-return checks of `main` before the window loop, in source
order, with the configuration it derives.  File I/O (the TIFF read and the
file-existence check) is outside the modelled scope; the geometry read from
the file arrives as `tiffWidth/tiffHeight/tiffDepth/nSlices`.  When PGURE
optimization is on, the C++ `lambda` stays uninitialized; it is modelled as
0 here (the configured value is only read when optimization is off).  Note
that no geometry validation (block size against frame size, positivity of
the overlap) occurs anywhere on this path. -/
def mainChecks (o : ProgramOptions) (tiffWidth tiffHeight tiffDepth nSlices : ℤ) :
    Except String MainConfig :=
  if ¬ (o.hasFilename ∧ o.hasStartImage ∧ o.hasEndImage) then
    .error "Required parameters not specified"
  else
    let numImages := o.endImage - o.startImage + 1
    let Bs := o.patchSize.getD 4
    let T := adjustT Bs (o.trajLength.getD 15)
    let pgureOpt := o.pgure.getD true
    match (if pgureOpt then some (0 : ℚ) else o.lambdaOpt) with
    | none => .error "PGURE optimization is OFF but no lambda specified"
    | some lam =>
      if tiffWidth ≠ tiffHeight then .error "Frame dimensions are not square"
      else if tiffDepth ≠ 8 ∧ tiffDepth ≠ 16 then
        .error "Images must be 8-bit or 16-bit"
      else if nSlices < numImages then .error "Sequence too short"
      else .ok { numImages := numImages, Bs := Bs, T := T, pgureOpt := pgureOpt,
                 lambda := lam,
                 motionP := o.motionNbhd.getD 7,
                 medianSize := o.medianSize.getD 5,
                 tol := tolForOptimize o.tolerance,
                 Bo := o.patchOverlap.getD 1,
                 noiseMethod := o.noiseMethod.getD 4 }

/-- A parameter bundle with all three geometry violations of the claim:
`patch_size = 4` with 3×3 frames (block larger than frame),
`patch_overlap = 0` (non-positive overlap), and
`trajectory_length = 20 > 16 = patch_size²`. -/
def invalidGeometryOptions : ProgramOptions :=
  { hasFilename := true, hasStartImage := true, hasEndImage := true,
    startImage := 1, endImage := 50,
    patchSize := some 4, trajLength := some 20, pgure := some true,
    lambdaOpt := none, motionNbhd := none, medianSize := none,
    tolerance := none, patchOverlap := some 0, noiseMethod := none }

/-- The per-window lambda handling of the worker closure `func` in `main`
(lines 315–371).  The closure captures the configured `lambda` by value
(`[&, lambda_ = lambda]`) and each invocation starts from a fresh local copy
(`auto lambda = lambda_`); with optimization on, the first window is seeded
with the window mean (`arma::accu(u) / (Nx*Ny*T)`) and every other window
with the captured value; the function returns the lambda finally passed to
`Reconstruct`. -/
def funcLambda (pgureOpt : Bool) (lambdaCaptured meanIntensity : ℚ)
    (optimize : ℚ → ℚ) (timeiter : ℕ) : ℚ :=
  let lam := lambdaCaptured
  if pgureOpt then optimize (if timeiter = 0 then meanIntensity else lam)
  else lam

/-! ## Output normalization of `main` (PGURE-SVT-bin.cpp lines 398–403) -/

/-- `arma::cube::min()` over the flattened output samples (the empty case
cannot occur for a loaded sequence; it is mapped to 0). -/
def seqMin (l : List ℚ) : ℚ :=
  match l with
  | [] => 0
  | x :: xs => xs.foldl min x

/-- `arma::cube::max()` over the flattened output samples. -/
def seqMax (l : List ℚ) : ℚ :=
  match l with
  | [] => 0
  | x :: xs => xs.foldl max x

/-- The unconditional post-loop rescaling
`cleansequence = (cleansequence - min) / (max - min)` followed by
`65535 * cleansequence` (then cast to `unsigned short`): no configuration is
consulted on this path.  For a constant sequence the divisor
`seqMax l - seqMin l` is zero. -/
def outputScale (l : List ℚ) : List ℚ :=
  l.map (fun v => 65535 * ((v - seqMin l) / (seqMax l - seqMin l)))

theorem foldl_min_le_init (xs : List ℚ) (a : ℚ) : xs.foldl min a ≤ a := by
  induction xs generalizing a with
  | nil => simp
  | cons x xs ih => exact le_trans (ih (min a x)) (min_le_left a x)

theorem foldl_min_le_mem (xs : List ℚ) (a v : ℚ) (h : v ∈ xs) :
    xs.foldl min a ≤ v := by
  induction xs generalizing a with
  | nil => cases h
  | cons x xs ih =>
    rcases List.mem_cons.mp h with rfl | h2
    · exact le_trans (foldl_min_le_init xs (min a v)) (min_le_right a v)
    · exact ih (min a x) h2

theorem foldl_max_ge_init (xs : List ℚ) (a : ℚ) : a ≤ xs.foldl max a := by
  induction xs generalizing a with
  | nil => simp
  | cons x xs ih => exact le_trans (le_max_left a x) (ih (max a x))

theorem foldl_max_ge_mem (xs : List ℚ) (a v : ℚ) (h : v ∈ xs) :
    v ≤ xs.foldl max a := by
  induction xs generalizing a with
  | nil => cases h
  | cons x xs ih =>
    rcases List.mem_cons.mp h with rfl | h2
    · exact le_trans (le_max_right a v) (foldl_max_ge_init xs (max a v))
    · exact ih (max a x) h2

theorem seqMin_le (l : List ℚ) (v : ℚ) (h : v ∈ l) : seqMin l ≤ v := by
  match l with
  | [] => cases h
  | x :: xs =>
    unfold seqMin
    rcases List.mem_cons.mp h with rfl | h2
    · exact foldl_min_le_init xs v
    · exact foldl_min_le_mem xs x v h2

theorem le_seqMax (l : List ℚ) (v : ℚ) (h : v ∈ l) : v ≤ seqMax l := by
  match l with
  | [] => cases h
  | x :: xs =>
    unfold seqMax
    rcases List.mem_cons.mp h with rfl | h2
    · exact foldl_max_ge_init xs v
    · exact foldl_max_ge_mem xs x v h2

theorem seqMin_replicate (n : ℕ) (x : ℚ) : seqMin (List.replicate (n + 1) x) = x := by
  induction n with
  | zero => simp [seqMin]
  | succ m ih =>
    rw [List.replicate_succ] at ih ⊢
    rw [List.replicate_succ]
    simp only [seqMin, List.foldl_cons, min_self] at ih ⊢
    exact ih

theorem seqMax_replicate (n : ℕ) (x : ℚ) : seqMax (List.replicate (n + 1) x) = x := by
  induction n with
  | zero => simp [seqMax]
  | succ m ih =>
    rw [List.replicate_succ] at ih ⊢
    rw [List.replicate_succ]
    simp only [seqMax, List.foldl_cons, max_self] at ih ⊢
    exact ih

/-- C4: with PGURE optimization on, window 0 is seeded with the window mean,
but every later window is seeded with the by-value-captured configuration
lambda `lambda_` (uninitialized in the C++ when optimization is on), not
with the previous window's optimized lambda: `funcLambda` at `timeiter = k+1`
depends only on the captured value, and with `optimize = id`, `cap = 0`,
`mean = 1`, window 1's lambda (0) differs from window 0's optimized lambda
(1).  With optimization off, the configured lambda is used unconditionally. -/
theorem window_lambda_no_warm_start :
    (∀ (cap mean : ℚ) (optimize : ℚ → ℚ) (k : ℕ),
      funcLambda true cap mean optimize 0 = optimize mean ∧
      funcLambda true cap mean optimize (k + 1) = optimize cap ∧
      funcLambda false cap mean optimize k = cap) ∧
    funcLambda true 0 1 id 1 ≠ funcLambda true 0 1 id 0 := by
  constructor
  · intro cap mean optimize k
    refine ⟨by simp [funcLambda], by simp [funcLambda], by simp [funcLambda]⟩
  · simp [funcLambda]

/-- C5 counterexample: a configuration violating all three geometry
constraints of the claim (block 4×4 on 3×3 frames, overlap 0, trajectory
length 20 > 16 block pixels) is not rejected: `main`'s pre-loop checks
accept it, with the trajectory length silently clamped to 15. -/
theorem geometry_not_rejected_cex :
    (mainChecks invalidGeometryOptions 3 3 16 100).map
      (fun cfg => (cfg.T, cfg.Bs, cfg.Bo)) = .ok (15, 4, 0) := by rfl

/-- C5 (amended): invalid geometry is not rejected before window processing:
a trajectory length above the block-pixel count is silently clamped to
`patch_size² - 1` (`adjustT`), and no pre-loop check compares the block size
with the frame size or requires a positive overlap — `mainChecks` accepts
such configurations. -/
theorem geometry_silently_adjusted :
    (∀ Bs T0 : ℤ, Bs * Bs < T0 → adjustT Bs T0 = Bs * Bs - 1) ∧
    (mainChecks invalidGeometryOptions 3 3 16 100).map
      (fun cfg => (cfg.T, cfg.Bs, cfg.Bo, cfg.pgureOpt)) = .ok (15, 4, 0, true) := by
  constructor
  · intro Bs T0 h
    unfold adjustT
    rw [if_pos h]
  · rfl

/-- C5 witness instance: the clamp applied at `patch_size = 4`,
`trajectory_length = 20`. -/
theorem geometry_silently_adjusted_witness :
    ((4 : ℤ) * 4 < 20 ∧ adjustT 4 20 = 4 * 4 - 1) ∧
    (mainChecks invalidGeometryOptions 3 3 16 100).map
      (fun cfg => (cfg.T, cfg.Bs, cfg.Bo, cfg.pgureOpt)) = .ok (15, 4, 0, true) :=
  ⟨⟨by norm_num, geometry_silently_adjusted.1 4 20 (by norm_num)⟩,
    geometry_silently_adjusted.2⟩

/-- C8: the configured tolerance never reaches the optimizer: because the
inner `double tol` shadows the outer one, `tolForOptimize` returns the
built-in default `1E-7` for every configured value, so a configuration with
`tolerance = 1/1000` still stops on `1E-7`. -/
theorem tolerance_shadowed :
    (∀ t : ℚ, tolForOptimize (some t) = defaultTol) ∧
    tolForOptimize (some (1 / 1000)) ≠ (1 / 1000 : ℚ) := by
  constructor
  · intro t; rfl
  · norm_num [tolForOptimize, defaultTol]

/-- C9: the assembled output is always rescaled by
`65535 * (v - min) / (max - min)` (no configuration involved on this code
path): when `min < max` every output sample lies in `[0, 65535]`, and for a
constant sequence the divisor `max - min` is zero, so the C++ divides by
zero there. -/
theorem output_normalization :
    (∀ (l : List ℚ) (v : ℚ), v ∈ l → seqMin l < seqMax l →
      0 ≤ 65535 * ((v - seqMin l) / (seqMax l - seqMin l)) ∧
      65535 * ((v - seqMin l) / (seqMax l - seqMin l)) ≤ 65535) ∧
    (∀ (x : ℚ) (n : ℕ),
      seqMax (List.replicate (n + 1) x) - seqMin (List.replicate (n + 1) x) = 0) := by
  constructor
  · intro l v hv hlt
    have h1 : seqMin l ≤ v := seqMin_le l v hv
    have h2 : v ≤ seqMax l := le_seqMax l v hv
    have hd : 0 < seqMax l - seqMin l := by linarith
    constructor
    · have : 0 ≤ (v - seqMin l) / (seqMax l - seqMin l) :=
        div_nonneg (by linarith) (le_of_lt hd)
      linarith
    · have : (v - seqMin l) / (seqMax l - seqMin l) ≤ 1 :=
        (div_le_one hd).mpr (by linarith)
      linarith
  · intro x n
    rw [seqMax_replicate, seqMin_replicate, sub_self]

/-- C9 witness instance: the range bound at `l = [0, 2]`, `v = 2`, and the
zero divisor at the constant sequence `[5, 5, 5]`. -/
theorem output_normalization_witness :
    ((2 : ℚ) ∈ [(0 : ℚ), 2] ∧ seqMin [(0 : ℚ), 2] < seqMax [(0 : ℚ), 2] ∧
      0 ≤ 65535 * (((2 : ℚ) - seqMin [(0 : ℚ), 2]) / (seqMax [(0 : ℚ), 2] - seqMin [(0 : ℚ), 2])) ∧
      65535 * (((2 : ℚ) - seqMin [(0 : ℚ), 2]) / (seqMax [(0 : ℚ), 2] - seqMin [(0 : ℚ), 2])) ≤ 65535) ∧
    seqMax (List.replicate (2 + 1) (5 : ℚ)) - seqMin (List.replicate (2 + 1) (5 : ℚ)) = 0 :=
  ⟨⟨by decide, by decide,
    (output_normalization.1 [(0 : ℚ), 2] 2 (by decide) (by decide)).1,
    (output_normalization.1 [(0 : ℚ), 2] 2 (by decide) (by decide)).2⟩,
    output_normalization.2 5 2⟩

/-! ## Adaptive Rood Pattern Search (`MotionEstimator::ARPSMotionEstimation`,
arps.hpp lines 149–393)

Machine doubles are modelled by exact rationals.  A frame stack is a total
function `slice → row → col → ℚ`; all block accesses of the search are
guarded by the frame bounds exactly as in the source.  The `checkMat`
visited bitmap is modelled as a set of `(row, col)` offsets relative to the
patch origin (its indices there are `(offset + motionWindow)`); the C++
matrix would index out of bounds for offsets beyond the window, which is
where the corrected claim C3 needs its `motionWindow ≥ 2` hypothesis.
The predictive cost additions guarded by `if (pMotion > 0.0)` are dead code
(`pMotion` is the constant `0.0`) and contribute nothing to any cost. -/

/-- `norm(refBlock - powBlock, "fro")² * OoBlockSizeSq`: the squared
Frobenius distance between the `Bs × Bs` block of slice `s1` at `(i, j)` and
the block of slice `s2` at `(y, x)`, divided by the block pixel count. -/
def blockCostQ (A : ℤ → ℤ → ℤ → ℚ) (Bs : ℕ) (s1 s2 i j y x : ℤ) : ℚ :=
  (∑ a ∈ Finset.range Bs, ∑ b ∈ Finset.range Bs,
    (A s1 (i + a) (j + b) - A s2 (y + a) (x + b)) ^ 2) / ((Bs : ℚ) * Bs)

/-- The per-patch, per-frame-pair context of one `ARPSMotionEstimation`
iteration: frame geometry, search window, the patch origin `(i, j)`, and the
candidate-block cost against the fixed reference block (`C y x` is the cost
of the block of the target slice at `(y, x)`). -/
structure ArpsCtx where
  Nx : ℤ
  Ny : ℤ
  Bs : ℕ
  wind : ℤ
  i : ℤ
  j : ℤ
  C : ℤ → ℤ → ℚ

/-- Context built from a frame stack: the cost function is the guarded
block cost of slice `s2` against the reference block of slice `s1` at the
patch origin. -/
def mkArpsCtx (A : ℤ → ℤ → ℤ → ℚ) (Nx Ny : ℤ) (Bs : ℕ) (wind s1 s2 i j : ℤ) :
    ArpsCtx :=
  ⟨Nx, Ny, Bs, wind, i, j, fun y x => blockCostQ A Bs s1 s2 i j y x⟩

/-- Negation of the frame-bound skip
`refBlkHor < 0 || refBlkHor + Bs - 1 >= Ny || refBlkVer < 0 || refBlkVer + Bs - 1 >= Nx`. -/
def inFrame (ctx : ArpsCtx) (y x : ℤ) : Prop :=
  0 ≤ x ∧ x + ctx.Bs - 1 < ctx.Ny ∧ 0 ≤ y ∧ y + ctx.Bs - 1 < ctx.Nx

instance (ctx : ArpsCtx) (y x : ℤ) : Decidable (inFrame ctx y x) := by
  unfold inFrame; infer_instance

/-- Negation of the search-window skip
`refBlkHor < j - wind || refBlkHor > j + wind || refBlkVer < i - wind || refBlkVer > i + wind`. -/
def inBox (ctx : ArpsCtx) (y x : ℤ) : Prop :=
  ctx.j - ctx.wind ≤ x ∧ x ≤ ctx.j + ctx.wind ∧
    ctx.i - ctx.wind ≤ y ∧ y ≤ ctx.i + ctx.wind

instance (ctx : ArpsCtx) (y x : ℤ) : Decidable (inBox ctx y x) := by
  unfold inBox; infer_instance

/-- The `1E8` initialization of the cost vector. -/
def sentinel : ℚ := 100000000

/-- The SDSP loop state: current centre `(x, y)`, the carried minimum cost
(`costs(2)`), and the visited offsets (`checkMat`). -/
structure SState where
  x : ℤ
  y : ℤ
  cost : ℚ
  vis : Finset (ℤ × ℤ)

/-- An SDSP candidate at absolute position `(y, x)` is evaluated iff it is
inside the frame, inside the search window, and its offset has not been
visited (the three `continue` guards besides `k == 2`). -/
def sdspOkAt (ctx : ArpsCtx) (st : SState) (y x : ℤ) : Prop :=
  inFrame ctx y x ∧ inBox ctx y x ∧ (y - ctx.i, x - ctx.j) ∉ st.vis

instance (ctx : ArpsCtx) (st : SState) (y x : ℤ) : Decidable (sdspOkAt ctx st y x) := by
  unfold sdspOkAt; infer_instance

/-- The cost entry of an SDSP candidate: its block cost when evaluated, the
`1E8` sentinel when skipped. -/
def sdspCostAt (ctx : ArpsCtx) (st : SState) (y x : ℤ) : ℚ :=
  if sdspOkAt ctx st y x then ctx.C y x else sentinel

/-- The `checkMat` mark added by an evaluated SDSP candidate. -/
def sdspMarkAt (ctx : ArpsCtx) (st : SState) (y x : ℤ) : Finset (ℤ × ℤ) :=
  if sdspOkAt ctx st y x then {(y - ctx.i, x - ctx.j)} else ∅

/-- The minimum of the SDSP cost vector
`(costs(0), costs(1), costs(2) = carried, costs(3), costs(4), costs(5) = 1E8)`
for candidates `SDSP = {(0,-1), (-1,0), (0,0), (1,0), (0,1)}`. -/
def sdspMinCost (ctx : ArpsCtx) (st : SState) : ℚ :=
  min (sdspCostAt ctx st (st.y - 1) st.x)
    (min (sdspCostAt ctx st st.y (st.x - 1))
      (min st.cost
        (min (sdspCostAt ctx st st.y (st.x + 1))
          (min (sdspCostAt ctx st (st.y + 1) st.x) sentinel))))

/-- The visited set after one SDSP pass (all evaluated candidates marked). -/
def sdspVisNext (ctx : ArpsCtx) (st : SState) : Finset (ℤ × ℤ) :=
  st.vis ∪ sdspMarkAt ctx st (st.y - 1) st.x ∪ sdspMarkAt ctx st st.y (st.x - 1) ∪
    sdspMarkAt ctx st st.y (st.x + 1) ∪ sdspMarkAt ctx st (st.y + 1) st.x

/-- One iteration of the SDSP `do … while` loop: evaluate the four
non-centre candidates, take `point(0)`, the first index attaining the
minimum; index 2 (the carried centre cost) terminates with the current
position, any other index moves there and carries the minimum.  The final
branch is `point(0) = 5`; it can only be reached when the carried cost
exceeds the sentinel (there the C++ reads the out-of-range row 5 of the 5×2
`SDSP` matrix); it is modelled as carrying on in place. -/
def sdspStep (ctx : ArpsCtx) (st : SState) : (ℤ × ℤ) ⊕ SState :=
  if sdspCostAt ctx st (st.y - 1) st.x = sdspMinCost ctx st then
    .inr ⟨st.x, st.y - 1, sdspMinCost ctx st, sdspVisNext ctx st⟩
  else if sdspCostAt ctx st st.y (st.x - 1) = sdspMinCost ctx st then
    .inr ⟨st.x - 1, st.y, sdspMinCost ctx st, sdspVisNext ctx st⟩
  else if st.cost = sdspMinCost ctx st then
    .inl (st.x, st.y)
  else if sdspCostAt ctx st st.y (st.x + 1) = sdspMinCost ctx st then
    .inr ⟨st.x + 1, st.y, sdspMinCost ctx st, sdspVisNext ctx st⟩
  else if sdspCostAt ctx st (st.y + 1) st.x = sdspMinCost ctx st then
    .inr ⟨st.x, st.y + 1, sdspMinCost ctx st, sdspVisNext ctx st⟩
  else
    .inr ⟨st.x, st.y, sdspMinCost ctx st, sdspVisNext ctx st⟩

/-- The SDSP loop with explicit fuel; `none` when the fuel is exhausted
before the centre wins (the C++ loop would still be running). -/
def sdspRun (ctx : ArpsCtx) : ℕ → SState → Option (ℤ × ℤ)
  | 0, _ => none
  | fuel + 1, st =>
    match sdspStep ctx st with
    | .inl p => some p
    | .inr st' => sdspRun ctx fuel st'

/-- The SDSP loop's position after at most `fuel` iterations (the current
position when the fuel is exhausted). -/
def sdspRunPos (ctx : ArpsCtx) : ℕ → SState → ℤ × ℤ
  | 0, st => (st.x, st.y)
  | fuel + 1, st =>
    match sdspStep ctx st with
    | .inl p => p
    | .inr st' => sdspRunPos ctx fuel st'

/-- An LDSP candidate at `(y, x)` is evaluated iff it lies inside the frame
and the step size is nonzero (the skips `k == 2 || stepSize == 0`; the LDSP
has no search-window guard). -/
def ldspOk (ctx : ArpsCtx) (step y x : ℤ) : Prop :=
  inFrame ctx y x ∧ step ≠ 0

instance (ctx : ArpsCtx) (step y x : ℤ) : Decidable (ldspOk ctx step y x) := by
  unfold ldspOk; infer_instance

/-- The cost entry of an LDSP candidate. -/
def ldspCost (ctx : ArpsCtx) (step y x : ℤ) : ℚ :=
  if ldspOk ctx step y x then ctx.C y x else sentinel

/-- The `checkMat` mark of an evaluated LDSP candidate (offsets relative to
the patch origin, where the LDSP is centred). -/
def ldspMark (ctx : ArpsCtx) (step y x : ℤ) : Finset (ℤ × ℤ) :=
  if ldspOk ctx step y x then {(y - ctx.i, x - ctx.j)} else ∅

/-- `stepSize` and `maxIdx` (lines 196–219): on the first patch column
(`j == 0`) the step is the fixed 2 with 5 candidates; otherwise the step is
the Chebyshev magnitude of the previous motion vector `prev = (dy, dx)`,
with the predictive sixth candidate exactly when that vector is not
axis-aligned at the step magnitude. -/
def stepChoice (j : ℤ) (prev : ℤ × ℤ) : ℤ × Bool :=
  if j = 0 then (2, false)
  else
    let yT := |prev.1|
    let xT := |prev.2|
    let s := if xT ≤ yT then yT else xT
    if (xT = s ∧ yT = 0) ∨ (xT = 0 ∧ yT = s) then (s, false) else (s, true)

/-- Row 5 of the `LDSP` matrix: the predictive point's component when
`maxIdx = 6`, the zero left by `LDSP.zeros()` otherwise. -/
def ldspSix (six : Bool) (v : ℤ) : ℤ := if six then v else 0

/-- `costs(5)`: evaluated only when `maxIdx = 6`, else left at the sentinel. -/
def ldspC5 (ctx : ArpsCtx) (step : ℤ) (six : Bool) (pm : ℤ × ℤ) : ℚ :=
  if six then ldspCost ctx step (ctx.i + ldspSix six pm.2) (ctx.j + ldspSix six pm.1)
  else sentinel

/-- The minimum of the LDSP cost vector
`(costs(0), costs(1), costs(2) = centre cost, costs(3), costs(4), costs(5))`
for candidates `(0,-step), (-step,0), centre, (step,0), (0,step), pm`. -/
def ldspMinCost (ctx : ArpsCtx) (step : ℤ) (six : Bool) (pm : ℤ × ℤ) : ℚ :=
  min (ldspCost ctx step (ctx.i - step) ctx.j)
    (min (ldspCost ctx step ctx.i (ctx.j - step))
      (min (ctx.C ctx.i ctx.j)
        (min (ldspCost ctx step ctx.i (ctx.j + step))
          (min (ldspCost ctx step (ctx.i + step) ctx.j) (ldspC5 ctx step six pm)))))

/-- `checkMat` after the LDSP: the centre `checkMat(wind, wind) = 1` plus
every evaluated candidate's offset. -/
def ldspVis (ctx : ArpsCtx) (step : ℤ) (six : Bool) (pm : ℤ × ℤ) : Finset (ℤ × ℤ) :=
  ({((0 : ℤ), (0 : ℤ))} : Finset (ℤ × ℤ)) ∪
    ldspMark ctx step (ctx.i - step) ctx.j ∪ ldspMark ctx step ctx.i (ctx.j - step) ∪
    ldspMark ctx step ctx.i (ctx.j + step) ∪ ldspMark ctx step (ctx.i + step) ctx.j ∪
    (if six then ldspMark ctx step (ctx.i + ldspSix six pm.2) (ctx.j + ldspSix six pm.1)
     else ∅)

/-- The LDSP stage: centre cost `costs(2)` computed unconditionally, the
four rood points at distance `step`, and (when `six`) the predictive point
`pm = (dx, dy)`; the result is the SDSP start state at the first index
attaining the minimum cost, carrying that minimum and the visited marks. -/
def ldspState (ctx : ArpsCtx) (step : ℤ) (six : Bool) (pm : ℤ × ℤ) : SState :=
  if ldspCost ctx step (ctx.i - step) ctx.j = ldspMinCost ctx step six pm then
    ⟨ctx.j, ctx.i - step, ldspMinCost ctx step six pm, ldspVis ctx step six pm⟩
  else if ldspCost ctx step ctx.i (ctx.j - step) = ldspMinCost ctx step six pm then
    ⟨ctx.j - step, ctx.i, ldspMinCost ctx step six pm, ldspVis ctx step six pm⟩
  else if ctx.C ctx.i ctx.j = ldspMinCost ctx step six pm then
    ⟨ctx.j, ctx.i, ldspMinCost ctx step six pm, ldspVis ctx step six pm⟩
  else if ldspCost ctx step ctx.i (ctx.j + step) = ldspMinCost ctx step six pm then
    ⟨ctx.j + step, ctx.i, ldspMinCost ctx step six pm, ldspVis ctx step six pm⟩
  else if ldspCost ctx step (ctx.i + step) ctx.j = ldspMinCost ctx step six pm then
    ⟨ctx.j, ctx.i + step, ldspMinCost ctx step six pm, ldspVis ctx step six pm⟩
  else
    ⟨ctx.j + ldspSix six pm.1, ctx.i + ldspSix six pm.2,
      ldspMinCost ctx step six pm, ldspVis ctx step six pm⟩

/-- Fuel sufficient for the SDSP loop (shown in `sdsp_loop_terminates`):
one more than the number of cells of the `(2 wind + 1)²` visited bitmap. -/
def ARPSFuel (ctx : ArpsCtx) : ℕ := (2 * ctx.wind + 1).toNat ^ 2 + 1

/-- One whole `ARPSMotionEstimation` iteration for one patch: LDSP stage
seeded by the previous motion vector `prev = (dy, dx)` (`motions(·, it, iARPS3)`),
then the SDSP refinement; the result is the final absolute `(x, y)`. -/
def ARPSSearch (ctx : ArpsCtx) (prev : ℤ × ℤ) : ℤ × ℤ :=
  let sc := stepChoice ctx.j prev
  sdspRunPos ctx (ARPSFuel ctx) (ldspState ctx sc.1 sc.2 (prev.2, prev.1))

/-- The recorded motion vector
`(motions(0,·) , motions(1,·)) = (y - i, x - j)`. -/
def ARPSMotion (ctx : ArpsCtx) (prev : ℤ × ℤ) : ℤ × ℤ :=
  let xy := ARPSSearch ctx prev
  (xy.2 - ctx.i, xy.1 - ctx.j)

/-- A per-patch chain of search steps across frame pairs, each seeded by the
previously recorded motion vector, starting from the zero-initialized
`motions` cube.  The forward and backward passes of
`MotionEstimator::Estimate` always seed a step with either the zero
initialization or a motion recorded by an earlier step, so every motion the
estimator records is a value of such a chain. -/
def motionChain (ctxs : List ArpsCtx) (prev : ℤ × ℤ) : List (ℤ × ℤ) :=
  match ctxs with
  | [] => []
  | ctx :: rest => ARPSMotion ctx prev :: motionChain rest (ARPSMotion ctx prev)

/-! ### `point(0)`: the first index attaining the cost minimum -/

theorem min6_le_third (c0 c1 c2 c3 c4 c5 : ℚ) :
    min c0 (min c1 (min c2 (min c3 (min c4 c5)))) ≤ c2 :=
  le_trans (min_le_right _ _) (le_trans (min_le_right _ _) (min_le_left _ _))

theorem min6_eq_one (c0 c1 c2 c3 c4 c5 : ℚ) :
    min c0 (min c1 (min c2 (min c3 (min c4 c5)))) = c0 ∨
    min c0 (min c1 (min c2 (min c3 (min c4 c5)))) = c1 ∨
    min c0 (min c1 (min c2 (min c3 (min c4 c5)))) = c2 ∨
    min c0 (min c1 (min c2 (min c3 (min c4 c5)))) = c3 ∨
    min c0 (min c1 (min c2 (min c3 (min c4 c5)))) = c4 ∨
    min c0 (min c1 (min c2 (min c3 (min c4 c5)))) = c5 := by
  rcases min_choice c0 (min c1 (min c2 (min c3 (min c4 c5)))) with h | h
  · exact Or.inl h
  rw [h]
  rcases min_choice c1 (min c2 (min c3 (min c4 c5))) with h1 | h1
  · exact Or.inr (Or.inl h1)
  rw [h1]
  rcases min_choice c2 (min c3 (min c4 c5)) with h2 | h2
  · exact Or.inr (Or.inr (Or.inl h2))
  rw [h2]
  rcases min_choice c3 (min c4 c5) with h3 | h3
  · exact Or.inr (Or.inr (Or.inr (Or.inl h3)))
  rw [h3]
  rcases min_choice c4 c5 with h4 | h4
  · exact Or.inr (Or.inr (Or.inr (Or.inr (Or.inl h4))))
  · exact Or.inr (Or.inr (Or.inr (Or.inr (Or.inr h4))))

/-! ### SDSP step facts -/

theorem sdspMinCost_le_carried (ctx : ArpsCtx) (st : SState) :
    sdspMinCost ctx st ≤ st.cost := by
  unfold sdspMinCost
  exact min6_le_third _ _ _ _ _ _

theorem sdspStep_inl_eq (ctx : ArpsCtx) (st : SState) (p : ℤ × ℤ)
    (h : sdspStep ctx st = .inl p) : p = (st.x, st.y) := by
  unfold sdspStep at h
  split_ifs at h
  injection h with h2
  exact h2.symm

theorem sdspStep_inr_facts (ctx : ArpsCtx) (st st' : SState)
    (hcost : st.cost < sentinel)
    (h : sdspStep ctx st = .inr st') :
    st'.cost < sentinel ∧ inBox ctx st'.y st'.x ∧ st.vis ⊆ st'.vis ∧
      (st'.y - ctx.i, st'.x - ctx.j) ∈ st'.vis ∧
      (st'.y - ctx.i, st'.x - ctx.j) ∉ st.vis := by
  have hms : sdspMinCost ctx st < sentinel :=
    lt_of_le_of_lt (sdspMinCost_le_carried ctx st) hcost
  have hsub : st.vis ⊆ sdspVisNext ctx st := by
    intro z hz
    unfold sdspVisNext
    simp only [Finset.mem_union]
    tauto
  unfold sdspStep at h
  split_ifs at h with h0 h1 h2 h3 h4
  · -- move to `(st.y - 1, st.x)` (SDSP index 0)
    injection h with h'
    subst h'
    have hok : sdspOkAt ctx st (st.y - 1) st.x := by
      by_contra hno
      rw [sdspCostAt, if_neg hno] at h0
      rw [← h0] at hms
      exact lt_irrefl _ hms
    refine ⟨hms, hok.2.1, hsub, ?_, hok.2.2⟩
    unfold sdspVisNext
    simp only [Finset.mem_union]
    left; left; left; right
    rw [sdspMarkAt, if_pos hok]
    exact Finset.mem_singleton.mpr rfl
  · -- move to `(st.y, st.x - 1)` (SDSP index 1)
    injection h with h'
    subst h'
    have hok : sdspOkAt ctx st st.y (st.x - 1) := by
      by_contra hno
      rw [sdspCostAt, if_neg hno] at h1
      rw [← h1] at hms
      exact lt_irrefl _ hms
    refine ⟨hms, hok.2.1, hsub, ?_, hok.2.2⟩
    unfold sdspVisNext
    simp only [Finset.mem_union]
    left; left; right
    rw [sdspMarkAt, if_pos hok]
    exact Finset.mem_singleton.mpr rfl
  · -- move to `(st.y, st.x + 1)` (SDSP index 3)
    injection h with h'
    subst h'
    have hok : sdspOkAt ctx st st.y (st.x + 1) := by
      by_contra hno
      rw [sdspCostAt, if_neg hno] at h3
      rw [← h3] at hms
      exact lt_irrefl _ hms
    refine ⟨hms, hok.2.1, hsub, ?_, hok.2.2⟩
    unfold sdspVisNext
    simp only [Finset.mem_union]
    left; right
    rw [sdspMarkAt, if_pos hok]
    exact Finset.mem_singleton.mpr rfl
  · -- move to `(st.y + 1, st.x)` (SDSP index 4)
    injection h with h'
    subst h'
    have hok : sdspOkAt ctx st (st.y + 1) st.x := by
      by_contra hno
      rw [sdspCostAt, if_neg hno] at h4
      rw [← h4] at hms
      exact lt_irrefl _ hms
    refine ⟨hms, hok.2.1, hsub, ?_, hok.2.2⟩
    unfold sdspVisNext
    simp only [Finset.mem_union]
    right
    rw [sdspMarkAt, if_pos hok]
    exact Finset.mem_singleton.mpr rfl
  · -- `point(0) = 5` is unreachable while the carried cost is below the
    -- sentinel
    exfalso
    have h6 := min6_eq_one (sdspCostAt ctx st (st.y - 1) st.x)
      (sdspCostAt ctx st st.y (st.x - 1)) st.cost
      (sdspCostAt ctx st st.y (st.x + 1)) (sdspCostAt ctx st (st.y + 1) st.x)
      sentinel
    rw [show min (sdspCostAt ctx st (st.y - 1) st.x)
      (min (sdspCostAt ctx st st.y (st.x - 1))
        (min st.cost
          (min (sdspCostAt ctx st st.y (st.x + 1))
            (min (sdspCostAt ctx st (st.y + 1) st.x) sentinel)))) =
      sdspMinCost ctx st from rfl] at h6
    rcases h6 with h6 | h6 | h6 | h6 | h6 | h6
    · exact h0 h6.symm
    · exact h1 h6.symm
    · exact h2 h6.symm
    · exact h3 h6.symm
    · exact h4 h6.symm
    · rw [h6] at hms; exact lt_irrefl _ hms

theorem sdspRunPos_succ (ctx : ArpsCtx) (f : ℕ) (st : SState) :
    sdspRunPos ctx (f + 1) st =
      match sdspStep ctx st with
      | .inl p => p
      | .inr st' => sdspRunPos ctx f st' := rfl

theorem sdspRun_succ (ctx : ArpsCtx) (f : ℕ) (st : SState) :
    sdspRun ctx (f + 1) st =
      match sdspStep ctx st with
      | .inl p => some p
      | .inr st' => sdspRun ctx f st' := rfl

/-- Every position the SDSP loop can return is either its start position or
inside the search window (every accepted move passes the window guard). -/
theorem sdspRunPos_cases (ctx : ArpsCtx) :
    ∀ (fuel : ℕ) (st : SState), st.cost < sentinel →
      sdspRunPos ctx fuel st = (st.x, st.y) ∨
        inBox ctx (sdspRunPos ctx fuel st).2 (sdspRunPos ctx fuel st).1 := by
  intro fuel
  induction fuel with
  | zero => intro st _; exact Or.inl rfl
  | succ f ih =>
    intro st hcost
    rcases hstep : sdspStep ctx st with p | st'
    · left
      have hp := sdspStep_inl_eq ctx st p hstep
      rw [sdspRunPos_succ, hstep]
      exact hp
    · obtain ⟨hc', hbox, _, _, _⟩ := sdspStep_inr_facts ctx st st' hcost hstep
      rw [sdspRunPos_succ, hstep]
      rcases ih st' hc' with heq | hbox2
      · right
        show inBox ctx (sdspRunPos ctx f st').2 (sdspRunPos ctx f st').1
        rw [heq]
        exact hbox
      · right
        show inBox ctx (sdspRunPos ctx f st').2 (sdspRunPos ctx f st').1
        exact hbox2

theorem ldspMinCost_le_center (ctx : ArpsCtx) (step : ℤ) (six : Bool) (pm : ℤ × ℤ) :
    ldspMinCost ctx step six pm ≤ ctx.C ctx.i ctx.j := by
  unfold ldspMinCost
  exact min6_le_third _ _ _ _ _ _

/-- The LDSP winner carries a cost below the sentinel (it is at most the
centre block cost), and its displacement from the patch origin is bounded
per component by any bound on the step size and the predictive vector. -/
theorem ldspState_facts (ctx : ArpsCtx) (step : ℤ) (six : Bool) (pm : ℤ × ℤ)
    (B : ℤ) (hcen : ctx.C ctx.i ctx.j < sentinel)
    (hstep : |step| ≤ B) (hpmx : |pm.1| ≤ B) (hpmy : |pm.2| ≤ B) :
    (ldspState ctx step six pm).cost < sentinel ∧
    |(ldspState ctx step six pm).y - ctx.i| ≤ B ∧
    |(ldspState ctx step six pm).x - ctx.j| ≤ B := by
  have hB0 : 0 ≤ B := le_trans (abs_nonneg step) hstep
  have hm : ldspMinCost ctx step six pm < sentinel :=
    lt_of_le_of_lt (ldspMinCost_le_center ctx step six pm) hcen
  have hzero : |(0 : ℤ)| ≤ B := by simpa using hB0
  have hsx : |ldspSix six pm.1| ≤ B := by
    unfold ldspSix
    cases six
    · simpa using hB0
    · simpa using hpmx
  have hsy : |ldspSix six pm.2| ≤ B := by
    unfold ldspSix
    cases six
    · simpa using hB0
    · simpa using hpmy
  unfold ldspState
  split_ifs <;>
    refine ⟨hm, ?_, ?_⟩ <;>
    simp only [sub_sub_cancel_left, add_sub_cancel_left, sub_self, abs_neg] <;>
    first
    | exact hstep
    | exact hzero
    | exact hsx
    | exact hsy

theorem stepChoice_bound (j : ℤ) (prev : ℤ × ℤ) (w : ℤ) (hw : 2 ≤ w)
    (h1 : |prev.1| ≤ w) (h2 : |prev.2| ≤ w) :
    |(stepChoice j prev).1| ≤ w := by
  unfold stepChoice
  split_ifs with hj
  · simpa [abs_two] using hw
  · rcases le_or_lt |prev.2| |prev.1| with hc | hc
    · simp only [if_pos hc]
      split_ifs <;> simp only [abs_abs] <;> exact h1
    · simp only [if_neg (not_le.mpr hc)]
      split_ifs <;> simp only [abs_abs] <;> exact h2

/-- C3 (amended), one search step: if the search window half-width is at
least 2, the previous motion vector is bounded by it, and every block cost
is below the `1E8` sentinel, then the recorded motion vector is bounded per
component by the window half-width. -/
theorem ARPSMotion_bounded_step (ctx : ArpsCtx) (prev : ℤ × ℤ)
    (hw : 2 ≤ ctx.wind)
    (hp1 : |prev.1| ≤ ctx.wind) (hp2 : |prev.2| ≤ ctx.wind)
    (hC : ∀ y x, inFrame ctx y x → ctx.C y x < sentinel)
    (hij : inFrame ctx ctx.i ctx.j) :
    |(ARPSMotion ctx prev).1| ≤ ctx.wind ∧ |(ARPSMotion ctx prev).2| ≤ ctx.wind := by
  have hcen : ctx.C ctx.i ctx.j < sentinel := hC _ _ hij
  have hsb := stepChoice_bound ctx.j prev ctx.wind hw hp1 hp2
  obtain ⟨hcost, hy, hx⟩ := ldspState_facts ctx (stepChoice ctx.j prev).1
    (stepChoice ctx.j prev).2 (prev.2, prev.1) ctx.wind hcen hsb hp2 hp1
  have hgoal : ARPSMotion ctx prev =
      ((sdspRunPos ctx (ARPSFuel ctx) (ldspState ctx (stepChoice ctx.j prev).1
        (stepChoice ctx.j prev).2 (prev.2, prev.1))).2 - ctx.i,
       (sdspRunPos ctx (ARPSFuel ctx) (ldspState ctx (stepChoice ctx.j prev).1
        (stepChoice ctx.j prev).2 (prev.2, prev.1))).1 - ctx.j) := rfl
  rw [hgoal]
  rcases sdspRunPos_cases ctx (ARPSFuel ctx)
      (ldspState ctx (stepChoice ctx.j prev).1 (stepChoice ctx.j prev).2
        (prev.2, prev.1)) hcost with heq | hbox
  · rw [heq]
    exact ⟨hy, hx⟩
  · unfold inBox at hbox
    constructor
    · exact abs_le.mpr ⟨by omega, by omega⟩
    · exact abs_le.mpr ⟨by omega, by omega⟩

/-- C3 (amended): for a per-patch chain of ARPS searches seeded from the
zero-initialized motion cube, if the search neighbourhood half-width
`motionWindow` is at least 2 and every block cost stays below the `1E8`
sentinel, then every recorded motion vector is bounded per component by
`motionWindow`: the returned absolute patch location lies inside the
`motionWindow` box centred on the patch's original position. -/
theorem arps_motion_chain_bounded (w : ℤ) (ctxs : List ArpsCtx) (hw : 2 ≤ w)
    (hctx : ∀ ctx ∈ ctxs, ctx.wind = w ∧ inFrame ctx ctx.i ctx.j ∧
      ∀ y x, inFrame ctx y x → ctx.C y x < sentinel) :
    ∀ m ∈ motionChain ctxs (0, 0), |m.1| ≤ w ∧ |m.2| ≤ w := by
  have key : ∀ (l : List ArpsCtx),
      (∀ ctx ∈ l, ctx.wind = w ∧ inFrame ctx ctx.i ctx.j ∧
        ∀ y x, inFrame ctx y x → ctx.C y x < sentinel) →
      ∀ prev : ℤ × ℤ, |prev.1| ≤ w → |prev.2| ≤ w →
      ∀ m ∈ motionChain l prev, |m.1| ≤ w ∧ |m.2| ≤ w := by
    intro l
    induction l with
    | nil =>
      intro _ prev _ _ m hm
      simp [motionChain] at hm
    | cons c rest ih =>
      intro hl prev h1 h2 m hm
      obtain ⟨hcw, hcij, hcC⟩ := hl c (List.mem_cons_self c rest)
      have hb := ARPSMotion_bounded_step c prev (by omega) (by omega) (by omega)
        hcC hcij
      rw [hcw] at hb
      simp only [motionChain, List.mem_cons] at hm
      rcases hm with rfl | hm2
      · exact hb
      · exact ih (fun ctx hctx' => hl ctx (List.mem_cons_of_mem c hctx'))
          (ARPSMotion c prev) hb.1 hb.2 m hm2
  refine key ctxs hctx (0, 0) ?_ ?_
  · simpa using by omega
  · simpa using by omega

/-- Concrete frame pair for the C3 counterexample: 3×3 frames, the reference
block is the single pixel `(0,0)` of slice 0 with value 10; slice 1 holds 0
at `(0,0)`, 5 at `(0,1)`, 10 at `(0,2)` and 0 elsewhere. -/
def cexFrames : ℤ → ℤ → ℤ → ℚ := fun s y x =>
  if s = 0 then (if y = 0 ∧ x = 0 then 10 else 0)
  else if y = 0 ∧ x = 1 then 5
  else if y = 0 ∧ x = 2 then 10
  else 0

/-- The 1×1-block costs of `cexFrames` against the reference pixel, as a
literal table (shown equal to `blockCostQ` on the frame in
`arps_motion_bounded_cex`). -/
def cexCosts : ℤ → ℤ → ℚ := fun y x =>
  if y = 0 ∧ x = 1 then 25 else if y = 0 ∧ x = 2 then 0 else 100

/-- A 1×1-block search on the 3×3 frames with `motionWindow = 1`, for the
patch at `(0, 0)` (so `j = 0` and the LDSP step size is the fixed 2). -/
def cexCtx : ArpsCtx := ⟨3, 3, 1, 1, 0, 0, cexCosts⟩

/-- C3 counterexample: with `motionWindow = 1` (and the step size 2 used on
the first patch column), the LDSP winner escapes the search window and the
SDSP cannot pull it back: the recorded displacement is `(0, 2)`, whose
column component exceeds the configured half-width 1.  The cost table is
exactly the block-cost field of the concrete frame pair `cexFrames`. -/
theorem arps_motion_bounded_cex :
    cexCtx.wind = 1 ∧
    (∀ y x : ℤ, inFrame cexCtx y x →
      cexCtx.C y x = blockCostQ cexFrames 1 0 1 0 0 y x) ∧
    ARPSMotion cexCtx (0, 0) = (0, 2) ∧
    ¬ |(ARPSMotion cexCtx (0, 0)).2| ≤ cexCtx.wind := by
  refine ⟨rfl, ?_, ?_, ?_⟩
  · intro y x h
    obtain ⟨hx0, hx1, hy0, hy1⟩ := h
    norm_num [cexCtx] at hx1 hy1
    interval_cases y <;> interval_cases x <;>
      simp [cexCtx, cexCosts, cexFrames, blockCostQ, Finset.sum_range_one] <;>
      norm_num
  · decide
  · decide

/-- Search context for the C3 witness: same frame costs, `motionWindow = 2`. -/
def chainCtx : ArpsCtx := ⟨3, 3, 1, 2, 0, 0, cexCosts⟩

/-- C3 witness instance: the amended bound applied to a one-step chain with
`motionWindow = 2` on the concrete cost field. -/
theorem arps_motion_chain_bounded_witness :
    ((2 : ℤ) ≤ 2 ∧
      (∀ ctx ∈ [chainCtx], ctx.wind = 2 ∧ inFrame ctx ctx.i ctx.j ∧
        ∀ y x : ℤ, inFrame ctx y x → ctx.C y x < sentinel)) ∧
    (∀ m ∈ motionChain [chainCtx] (0, 0), |m.1| ≤ 2 ∧ |m.2| ≤ 2) := by
  have hh : ∀ ctx ∈ [chainCtx], ctx.wind = 2 ∧ inFrame ctx ctx.i ctx.j ∧
      ∀ y x : ℤ, inFrame ctx y x → ctx.C y x < sentinel := by
    intro ctx hc
    rw [List.mem_singleton] at hc
    subst hc
    refine ⟨rfl, by decide, ?_⟩
    intro y x _
    show cexCosts y x < sentinel
    unfold cexCosts sentinel
    split_ifs <;> norm_num
  exact ⟨⟨le_refl 2, hh⟩, arps_motion_chain_bounded 2 [chainCtx] (le_refl 2) hh⟩

/-! ### Termination of the SDSP refinement loop (C10) -/

/-- The cells of the `checkMat` bitmap, as offsets relative to the patch
origin: the `(2 wind + 1) × (2 wind + 1)` box. -/
def boxOffsets (ctx : ArpsCtx) : Finset (ℤ × ℤ) :=
  Finset.Icc (-ctx.wind) ctx.wind ×ˢ Finset.Icc (-ctx.wind) ctx.wind

theorem boxOffsets_card (ctx : ArpsCtx) :
    (boxOffsets ctx).card = (2 * ctx.wind + 1).toNat ^ 2 := by
  unfold boxOffsets
  rw [Finset.card_product, Int.card_Icc, sq]
  have h : ctx.wind + 1 - -ctx.wind = 2 * ctx.wind + 1 := by ring
  rw [h]

/-- Each non-terminating SDSP iteration moves to a freshly evaluated cell,
which was unvisited, in the window, and is marked: the number of unvisited
in-window cells strictly decreases, so fuel exceeding that number suffices. -/
theorem sdspRun_terminates_aux (ctx : ArpsCtx) :
    ∀ (fuel : ℕ) (st : SState), st.cost < sentinel →
      ((boxOffsets ctx) \ st.vis).card < fuel →
      (sdspRun ctx fuel st).isSome = true := by
  intro fuel
  induction fuel with
  | zero => intro st _ hcard; exact absurd hcard (Nat.not_lt_zero _)
  | succ f ih =>
    intro st hcost hcard
    rcases hstep : sdspStep ctx st with p | st'
    · rw [sdspRun_succ, hstep]
      rfl
    · obtain ⟨hc', hbox, hsub, hmem, hnmem⟩ := sdspStep_inr_facts ctx st st' hcost hstep
      have hoff : (st'.y - ctx.i, st'.x - ctx.j) ∈ boxOffsets ctx := by
        unfold boxOffsets
        unfold inBox at hbox
        rw [Finset.mem_product, Finset.mem_Icc, Finset.mem_Icc]
        constructor <;> constructor <;> omega
      have hlt : ((boxOffsets ctx) \ st'.vis).card < ((boxOffsets ctx) \ st.vis).card := by
        apply Finset.card_lt_card
        rw [Finset.ssubset_iff_of_subset
          (Finset.sdiff_subset_sdiff (le_refl _) hsub)]
        exact ⟨(st'.y - ctx.i, st'.x - ctx.j),
          Finset.mem_sdiff.mpr ⟨hoff, hnmem⟩,
          fun hin => (Finset.mem_sdiff.mp hin).2 hmem⟩
      rw [sdspRun_succ, hstep]
      exact ih st' hc' (by omega)

/-- C10: the SDSP refinement loop terminates: started from any state whose
carried cost is below the `1E8` sentinel (every evaluated block cost is, and
the carried cost is always a minimum over evaluated costs), the loop reaches
the centre-wins exit within `(2 motionWindow + 1)² + 1` iterations, because
the visited-offset bitmap lets each in-window cell be evaluated at most once
and every move lands on a freshly evaluated cell. -/
theorem sdsp_loop_terminates (ctx : ArpsCtx) (st : SState)
    (hcost : st.cost < sentinel) :
    (sdspRun ctx (ARPSFuel ctx) st).isSome = true := by
  apply sdspRun_terminates_aux ctx (ARPSFuel ctx) st hcost
  unfold ARPSFuel
  have h1 : ((boxOffsets ctx) \ st.vis).card ≤ (boxOffsets ctx).card :=
    Finset.card_le_card (Finset.sdiff_subset)
  have h2 := boxOffsets_card ctx
  omega

/-- C10 witness instance: the termination bound applied to the concrete
search context of the counterexample frames, started from the centre state
with its evaluated cost 100. -/
theorem sdsp_loop_terminates_witness :
    (⟨0, 0, 100, {((0 : ℤ), (0 : ℤ))}⟩ : SState).cost < sentinel ∧
    (sdspRun cexCtx (ARPSFuel cexCtx)
      ⟨0, 0, 100, {((0 : ℤ), (0 : ℤ))}⟩).isSome = true :=
  ⟨by decide,
    sdsp_loop_terminates cexCtx ⟨0, 0, 100, {((0 : ℤ), (0 : ℤ))}⟩ (by decide)⟩

/-! ## SVT engine: singular-value thresholding and reconstruction
(`SVT::Reconstruct`, svt.hpp lines 156–202)

The engine's scalars are machine doubles computed through SVD and `exp`;
they are modelled by real numbers, which makes these definitions
noncomputable (there is no exact executable counterpart of the C++
floating-point `exp`); concrete instances are evaluated by `simp`/`norm_num`
in the witnesses below. -/

/-- Modelled from the spec: the sign factor of the element soft-threshold of
`pguresvt::SoftThreshold` (utils.hpp, which is not among the sources here):
`sign(s)`. -/
noncomputable def sgn (s : ℝ) : ℝ := if 0 < s then 1 else if s < 0 then -1 else 0

/-- Modelled from the spec: the element soft-threshold of
`pguresvt::SoftThreshold` (utils.hpp, which is not among the sources here):
`Sthresh[i] = sign(S[i]) · max(|S[i]| − w, 0)`, where `w` is the scalar
`lambda` or the per-element threshold `wvec[i]`. -/
noncomputable def SoftThreshold (s w : ℝ) : ℝ := sgn s * max (|s| - w) 0

/-- `Sblock.max()` (as a fold from 0; the SVD's singular values are
nonnegative, for which this is the vector maximum whenever `Nt ≥ 1`). -/
noncomputable def vecMax {T : ℕ} (S : Fin T → ℝ) : ℝ := (List.ofFn S).foldr max 0

/-- The per-element threshold vector of the exponential branch:
`wvec = arma::abs(Sblock.max() * arma::exp(-0.5 * lambda * arma::square(Sblock)))`. -/
noncomputable def wvec {T : ℕ} (S : Fin T → ℝ) (lam : ℝ) (t : Fin T) : ℝ :=
  |vecMax S * Real.exp (-(1 / 2) * lam * S t ^ 2)|

/-- `Sthresh`: the soft-thresholded singular values — per-element thresholds
`wvec` in the exponential-weighting branch, the scalar `lambda` otherwise. -/
noncomputable def sthresh {T : ℕ} (expW : Bool) (lam : ℝ) (S : Fin T → ℝ)
    (t : Fin T) : ℝ :=
  if expW then SoftThreshold (S t) (wvec S lam t)
  else SoftThreshold (S t) lam

/-- One decomposed patch: per-frame location `patches(·, idx, k)` and its
SVD triple, with the Casorati rows indexed by the pixel pair `(a, b)` of the
vectorised `Bs × Bs` patch (the `arma::vectorise`/`arma::reshape` index
bookkeeping). -/
structure SVTPatch (Bs T : ℕ) where
  loc : Fin T → ℤ × ℤ
  U : Fin Bs × Fin Bs → Fin T → ℝ
  S : Fin T → ℝ
  V : Fin T → Fin T → ℝ

/-- Entry `(a, b)` of frame `k`'s reconstructed block
`Ublock * diagmat(θ) * Vblock.t()`. -/
noncomputable def reconEntry {Bs T : ℕ} (P : SVTPatch Bs T) (θ : Fin T → ℝ)
    (a b : Fin Bs) (k : Fin T) : ℝ :=
  ∑ t, P.U (a, b) t * θ t * P.V k t

/-- The `svd_econ` contract for a decomposed patch of the window `u`:
`U · diag(S) · Vᵗ` reproduces the extracted Casorati matrix, whose column
`k` is the vectorised block of frame `k` at the patch's location. -/
def ExactSVD {Bs T : ℕ} (u : ℤ → ℤ → Fin T → ℝ) (P : SVTPatch Bs T) : Prop :=
  ∀ (a b : Fin Bs) (k : Fin T),
    reconEntry P P.S a b k = u ((P.loc k).1 + a) ((P.loc k).2 + b) k

/-- The patch's block region at frame `k` contains pixel `(r, c)`. -/
def patchCovers {Bs T : ℕ} (P : SVTPatch Bs T) (k : Fin T) (r c : ℤ) : Prop :=
  (P.loc k).1 ≤ r ∧ r < (P.loc k).1 + Bs ∧
    (P.loc k).2 ≤ c ∧ c < (P.loc k).2 + Bs

instance {Bs T : ℕ} (P : SVTPatch Bs T) (k : Fin T) (r c : ℤ) :
    Decidable (patchCovers P k r c) := by
  unfold patchCovers; infer_instance

/-- The contribution of one patch to the accumulator `v` at pixel `(r, c)`
of frame `k`: its reconstructed block entry on its block region, zero
elsewhere. -/
noncomputable def contrib {Bs T : ℕ} (expW : Bool) (lam : ℝ) (P : SVTPatch Bs T)
    (k : Fin T) (r c : ℤ) : ℝ :=
  if h : patchCovers P k r c then
    reconEntry P (sthresh expW lam P.S)
      ⟨(r - (P.loc k).1).toNat, by obtain ⟨h1, h2, h3, h4⟩ := h; omega⟩
      ⟨(c - (P.loc k).2).toNat, by obtain ⟨h1, h2, h3, h4⟩ := h; omega⟩ k
  else 0

/-- The weight accumulator at pixel `(r, c)` of frame `k`: each covering
patch adds one unit (`weightsInc`). -/
def reconWeight {Bs T : ℕ} (Ps : List (SVTPatch Bs T)) (k : Fin T) (r c : ℤ) : ℕ :=
  (Ps.filter (fun P => decide (patchCovers P k r c))).length

/-- Pixelwise `SVT::Reconstruct`: the overlap sum of thresholded patch
reconstructions divided by the weight accumulator (`v /= weights`), with
non-finite entries — pixels of zero weight — replaced by zero
(`v.elem(find_nonfinite(v)).zeros()`). -/
noncomputable def ReconstructAt {Bs T : ℕ} (Ps : List (SVTPatch Bs T))
    (expW : Bool) (lam : ℝ) (k : Fin T) (r c : ℤ) : ℝ :=
  if reconWeight Ps k r c = 0 then 0
  else (Ps.map (fun P => contrib expW lam P k r c)).sum / (reconWeight Ps k r c : ℝ)

theorem SoftThreshold_zero (s : ℝ) : SoftThreshold s 0 = s := by
  unfold SoftThreshold sgn
  rcases lt_trichotomy s 0 with h | h | h
  · rw [if_neg (by linarith), if_pos h, abs_of_neg h, sub_zero,
      max_eq_left (by linarith)]
    ring
  · subst h
    simp
  · rw [if_pos h, abs_of_pos h, sub_zero, max_eq_left (by linarith)]
    ring

theorem SoftThreshold_nonneg (s lam : ℝ) (hs : 0 ≤ s) :
    0 ≤ SoftThreshold s lam := by
  unfold SoftThreshold sgn
  rcases eq_or_lt_of_le hs with h | h
  · rw [if_neg (by linarith), if_neg (by linarith), zero_mul]
  · rw [if_pos h, one_mul]
    exact le_max_right _ _

theorem SoftThreshold_sq_antitone (s lam1 lam2 : ℝ) (h12 : lam1 ≤ lam2) :
    SoftThreshold s lam2 ^ 2 ≤ SoftThreshold s lam1 ^ 2 := by
  unfold SoftThreshold
  rw [mul_pow, mul_pow]
  have hm : max (|s| - lam2) 0 ^ 2 ≤ max (|s| - lam1) 0 ^ 2 := by
    apply pow_le_pow_left₀ (le_max_right _ _)
    exact max_le_max (by linarith) (le_refl 0)
  exact mul_le_mul_of_nonneg_left hm (by positivity)

theorem foldr_max_nonneg (l : List ℝ) : 0 ≤ l.foldr max 0 := by
  induction l with
  | nil => exact le_refl 0
  | cons x xs ih => exact le_trans ih (le_max_right x _)

theorem vecMax_nonneg {T : ℕ} (S : Fin T → ℝ) : 0 ≤ vecMax S :=
  foldr_max_nonneg _

theorem sum_map_filter_const {α : Type} (l : List α) (p : α → Prop)
    [DecidablePred p] (f : α → ℝ) (v : ℝ)
    (h : ∀ a ∈ l, f a = if p a then v else 0) :
    (l.map f).sum = ((l.filter (fun a => decide (p a))).length : ℝ) * v := by
  induction l with
  | nil => simp
  | cons x xs ih =>
    have hx := h x (List.mem_cons_self x xs)
    have hxs := ih (fun a ha => h a (List.mem_cons_of_mem x ha))
    by_cases hp : p x
    · rw [List.map_cons, List.sum_cons, hxs, hx, if_pos hp,
        List.filter_cons_of_pos (by simpa using hp), List.length_cons]
      push_cast
      ring
    · rw [List.map_cons, List.sum_cons, hxs, hx, if_neg hp,
        List.filter_cons_of_neg (by simpa using hp)]
      ring

theorem contrib_of_covers {Bs T : ℕ} (u : ℤ → ℤ → Fin T → ℝ) (expW : Bool)
    (lam : ℝ) (P : SVTPatch Bs T) (k : Fin T) (r c : ℤ)
    (hex : ExactSVD u P) (hθ : sthresh expW lam P.S = P.S)
    (hc : patchCovers P k r c) :
    contrib expW lam P k r c = u r c k := by
  unfold contrib
  rw [dif_pos hc]
  rw [hθ, hex]
  obtain ⟨h1, h2, h3, h4⟩ := hc
  conv_rhs => rw [show r = (P.loc k).1 + (((r - (P.loc k).1).toNat : ℕ) : ℤ) from
      by omega,
    show c = (P.loc k).2 + (((c - (P.loc k).2).toNat : ℕ) : ℤ) from by omega]

/-- C2 (amended): in plain (non-exponential) thresholding mode,
`Reconstruct(0)` reproduces the input window at every pixel covered by at
least one patch: the zero-lambda soft-threshold leaves every singular value
unchanged, each exactly-decomposed patch contributes the original pixel
value, and the overlap-weighted average of identical values is that value. -/
theorem reconstruct_zero_lambda (Bs T : ℕ) (u : ℤ → ℤ → Fin T → ℝ)
    (Ps : List (SVTPatch Bs T)) (k : Fin T) (r c : ℤ)
    (hex : ∀ P ∈ Ps, ExactSVD u P)
    (hw : 1 ≤ reconWeight Ps k r c) :
    ReconstructAt Ps false 0 k r c = u r c k := by
  have hθ : ∀ P : SVTPatch Bs T, sthresh false 0 P.S = P.S := by
    intro P
    funext t
    exact SoftThreshold_zero (P.S t)
  have hs : ∀ P ∈ Ps, contrib false 0 P k r c =
      if patchCovers P k r c then u r c k else 0 := by
    intro P hP
    by_cases hc : patchCovers P k r c
    · rw [if_pos hc]
      exact contrib_of_covers u false 0 P k r c (hex P hP) (hθ P) hc
    · rw [if_neg hc]
      unfold contrib
      rw [dif_neg hc]
  have hsum := sum_map_filter_const Ps (fun P => patchCovers P k r c)
    (fun P => contrib false 0 P k r c) (u r c k) hs
  unfold ReconstructAt
  rw [if_neg (by omega)]
  rw [hsum]
  have h0 : ((reconWeight Ps k r c : ℝ)) ≠ 0 := Nat.cast_ne_zero.mpr (by omega)
  unfold reconWeight at h0 ⊢
  exact mul_div_cancel_left₀ _ h0

/-- Witness data: a 1×1-block, single-frame window of constant value 2,
decomposed as `U = [1]`, `S = [2]`, `V = [1]`. -/
def unitPatch : SVTPatch 1 1 :=
  ⟨fun _ => (0, 0), fun _ _ => 1, fun _ => 2, fun _ _ => 1⟩

/-- The constant window the patch decomposes. -/
noncomputable def constWindow : ℤ → ℤ → Fin 1 → ℝ := fun _ _ _ => 2

theorem unitPatch_exact : ∀ P ∈ [unitPatch], ExactSVD constWindow P := by
  intro P hP
  rw [List.mem_singleton] at hP
  subst hP
  intro a b k
  simp [reconEntry, unitPatch, constWindow, Fin.sum_univ_one]

/-- C2 witness instance: the amended zero-lambda identity applied to the
concrete decomposed constant window. -/
theorem reconstruct_zero_lambda_witness :
    ((∀ P ∈ [unitPatch], ExactSVD constWindow P) ∧
      1 ≤ reconWeight [unitPatch] (0 : Fin 1) 0 0) ∧
    ReconstructAt [unitPatch] false 0 (0 : Fin 1) 0 0 = constWindow 0 0 0 := by
  have hw : 1 ≤ reconWeight [unitPatch] (0 : Fin 1) 0 0 := by decide
  exact ⟨⟨unitPatch_exact, hw⟩,
    reconstruct_zero_lambda 1 1 constWindow [unitPatch] 0 0 0 unitPatch_exact hw⟩

/-- C2 counterexample: with exponential weighting enabled, `Reconstruct(0)`
does not return the input window: each singular value is soft-thresholded by
`max(S) · exp(0) = max(S)`, so the exactly decomposed constant-2 window
reconstructs to 0 ≠ 2. -/
theorem reconstruct_zero_lambda_cex :
    (∀ P ∈ [unitPatch], ExactSVD constWindow P) ∧
    ReconstructAt [unitPatch] true 0 (0 : Fin 1) 0 0 = 0 ∧
    constWindow 0 0 0 ≠ 0 := by
  refine ⟨unitPatch_exact, ?_, by norm_num [constWindow]⟩
  have hw1 : reconWeight [unitPatch] (0 : Fin 1) 0 0 = 1 := by decide
  have hco : patchCovers unitPatch (0 : Fin 1) 0 0 := by decide
  have hv : vecMax unitPatch.S = 2 := by
    show List.foldr max 0 (List.ofFn fun _ : Fin 1 => (2 : ℝ)) = 2
    rw [List.ofFn_succ]
    norm_num [List.ofFn_zero]
  have hθ : sthresh true 0 unitPatch.S 0 = 0 := by
    show SoftThreshold (unitPatch.S 0) (wvec unitPatch.S 0 0) = 0
    have hwv : wvec unitPatch.S 0 0 = 2 := by
      unfold wvec
      rw [hv]
      show |(2 : ℝ) * Real.exp (-(1 / 2) * 0 * unitPatch.S 0 ^ 2)| = 2
      norm_num [Real.exp_zero]
    rw [hwv]
    show sgn (unitPatch.S 0) * max (|unitPatch.S 0| - 2) 0 = 0
    have h2 : unitPatch.S 0 = 2 := rfl
    rw [h2]
    norm_num
  have hc : contrib true 0 unitPatch (0 : Fin 1) 0 0 = 0 := by
    unfold contrib
    rw [dif_pos hco]
    unfold reconEntry
    rw [Fin.sum_univ_one]
    rw [hθ]
    ring
  unfold ReconstructAt
  rw [if_neg (by omega), hw1, List.map_singleton, List.sum_singleton, hc]
  norm_num

/-! ## Frobenius norm of a reconstructed patch (C6) -/

open Matrix

/-- Squared Frobenius norm (`arma::norm(·, "fro")²`). -/
noncomputable def frobNormSq {m n : ℕ} (M : Matrix (Fin m) (Fin n) ℝ) : ℝ :=
  ∑ i, ∑ j, M i j ^ 2

/-- Frobenius norm (`arma::norm(·, "fro")`). -/
noncomputable def frobNorm {m n : ℕ} (M : Matrix (Fin m) (Fin n) ℝ) : ℝ :=
  Real.sqrt (frobNormSq M)

/-- The reconstructed block `Ublock * diagmat(θ) * Vblock.t()` as a matrix. -/
noncomputable def svtRecon {m T : ℕ} (U : Matrix (Fin m) (Fin T) ℝ)
    (θ : Fin T → ℝ) (V : Matrix (Fin T) (Fin T) ℝ) : Matrix (Fin m) (Fin T) ℝ :=
  U * Matrix.diagonal θ * Vᵀ

theorem frobNormSq_eq_trace {m n : ℕ} (M : Matrix (Fin m) (Fin n) ℝ) :
    frobNormSq M = Matrix.trace (Mᵀ * M) := by
  unfold frobNormSq Matrix.trace
  simp only [Matrix.diag_apply, Matrix.mul_apply, Matrix.transpose_apply, sq]
  rw [Finset.sum_comm]

/-- With orthonormal columns of `U` and `V`, the squared Frobenius norm of
`U · diag(θ) · Vᵗ` is the sum of the squared diagonal entries. -/
theorem frobNormSq_svtRecon {m T : ℕ} (U : Matrix (Fin m) (Fin T) ℝ)
    (θ : Fin T → ℝ) (V : Matrix (Fin T) (Fin T) ℝ)
    (hU : Uᵀ * U = 1) (hV : Vᵀ * V = 1) :
    frobNormSq (svtRecon U θ V) = ∑ t, θ t ^ 2 := by
  rw [frobNormSq_eq_trace]
  unfold svtRecon
  rw [Matrix.transpose_mul, Matrix.transpose_mul, Matrix.transpose_transpose,
    Matrix.diagonal_transpose]
  have hUX : ∀ X : Matrix (Fin T) (Fin T) ℝ, Uᵀ * (U * X) = X := by
    intro X
    rw [← Matrix.mul_assoc, hU, Matrix.one_mul]
  simp only [Matrix.mul_assoc]
  rw [hUX]
  rw [Matrix.trace_mul_comm]
  simp only [Matrix.mul_assoc]
  rw [hV, Matrix.mul_one, Matrix.diagonal_mul_diagonal, Matrix.trace_diagonal]
  simp [sq]

/-- C6: in scalar thresholding mode, for `0 ≤ lambda1 ≤ lambda2` the
Frobenius norm of the patch reconstructed at `lambda2` is at most the norm
at `lambda1` (given the SVD contract: orthonormal columns of `U` and `V`),
and soft-thresholding never produces a negative singular value. -/
theorem thresholding_monotone (m T : ℕ) (U : Matrix (Fin m) (Fin T) ℝ)
    (V : Matrix (Fin T) (Fin T) ℝ) (S : Fin T → ℝ) (lam1 lam2 : ℝ)
    (hU : Uᵀ * U = 1) (hV : Vᵀ * V = 1) (_h0 : 0 ≤ lam1) (h12 : lam1 ≤ lam2) :
    frobNorm (svtRecon U (fun t => SoftThreshold (S t) lam2) V) ≤
      frobNorm (svtRecon U (fun t => SoftThreshold (S t) lam1) V) ∧
    ∀ (lam : ℝ) (t : Fin T), 0 ≤ S t → 0 ≤ SoftThreshold (S t) lam := by
  constructor
  · unfold frobNorm
    apply Real.sqrt_le_sqrt
    rw [frobNormSq_svtRecon U _ V hU hV, frobNormSq_svtRecon U _ V hU hV]
    apply Finset.sum_le_sum
    intro t _
    exact SoftThreshold_sq_antitone (S t) lam1 lam2 h12
  · intro lam t hS
    exact SoftThreshold_nonneg (S t) lam hS

/-- C6 witness instance: the monotonicity applied to the 1×1 identity SVD
factors with `S = [2]`, `lambda1 = 0`, `lambda2 = 1`. -/
theorem thresholding_monotone_witness :
    ((1 : Matrix (Fin 1) (Fin 1) ℝ)ᵀ * 1 = 1 ∧ (0 : ℝ) ≤ 0 ∧ (0 : ℝ) ≤ 1) ∧
    (frobNorm (svtRecon (1 : Matrix (Fin 1) (Fin 1) ℝ)
        (fun t => SoftThreshold ((fun _ : Fin 1 => (2 : ℝ)) t) 1) 1) ≤
      frobNorm (svtRecon (1 : Matrix (Fin 1) (Fin 1) ℝ)
        (fun t => SoftThreshold ((fun _ : Fin 1 => (2 : ℝ)) t) 0) 1) ∧
      ∀ (lam : ℝ) (t : Fin 1),
        0 ≤ (fun _ : Fin 1 => (2 : ℝ)) t →
          0 ≤ SoftThreshold ((fun _ : Fin 1 => (2 : ℝ)) t) lam) := by
  have hI : (1 : Matrix (Fin 1) (Fin 1) ℝ)ᵀ * 1 = 1 := by
    rw [Matrix.transpose_one, Matrix.one_mul]
  exact ⟨⟨hI, le_refl 0, by norm_num⟩,
    thresholding_monotone 1 1 1 1 (fun _ => 2) 0 1 hI hI (le_refl 0) (by norm_num)⟩

/-- C7: with exponential weighting enabled, `Reconstruct(lambda)` thresholds
each singular value by the per-element vector
`wvec[t] = max(S) · exp(−0.5 · lambda · S[t]²)` in place of the scalar
`lambda` (the `arma::abs` of the source is the identity here since
`max(S) ≥ 0` and `exp > 0`); at `lambda = 0` every singular value is
soft-thresholded by `max(S)` — in particular a positive maximal singular
value is shrunk to 0 — rather than left unshrunk. -/
theorem exp_weighting_threshold (T : ℕ) (S : Fin T → ℝ) :
    (∀ (lam : ℝ) (t : Fin T),
      wvec S lam t = vecMax S * Real.exp (-(1 / 2) * lam * S t ^ 2)) ∧
    (∀ t : Fin T, sthresh true 0 S t = SoftThreshold (S t) (vecMax S)) ∧
    (∀ t : Fin T, S t = vecMax S → 0 < S t → sthresh true 0 S t = 0) := by
  have hmax : 0 ≤ vecMax S := vecMax_nonneg S
  have hw0 : ∀ t : Fin T, wvec S 0 t = vecMax S := by
    intro t
    unfold wvec
    norm_num [Real.exp_zero]
    exact hmax
  refine ⟨?_, ?_, ?_⟩
  · intro lam t
    unfold wvec
    exact abs_of_nonneg (by positivity)
  · intro t
    show SoftThreshold (S t) (wvec S 0 t) = SoftThreshold (S t) (vecMax S)
    rw [hw0 t]
  · intro t heq hpos
    show SoftThreshold (S t) (wvec S 0 t) = 0
    rw [hw0 t]
    unfold SoftThreshold
    rw [abs_of_pos hpos, heq, sub_self, max_self, mul_zero]

/-- C7 witness instance: the exponential-branch formulas at the concrete
singular-value vector `S = [2]`, with the inner hypotheses discharged at the
maximal singular value. -/
theorem exp_weighting_threshold_witness :
    ((fun _ : Fin 1 => (2 : ℝ)) 0 = vecMax (fun _ : Fin 1 => (2 : ℝ)) ∧
      (0 : ℝ) < (fun _ : Fin 1 => (2 : ℝ)) 0) ∧
    (wvec (fun _ : Fin 1 => (2 : ℝ)) 3 0 =
      vecMax (fun _ : Fin 1 => (2 : ℝ)) *
        Real.exp (-(1 / 2) * 3 * (fun _ : Fin 1 => (2 : ℝ)) 0 ^ 2) ∧
     sthresh true 0 (fun _ : Fin 1 => (2 : ℝ)) 0 =
      SoftThreshold ((fun _ : Fin 1 => (2 : ℝ)) 0) (vecMax (fun _ : Fin 1 => (2 : ℝ))) ∧
     sthresh true 0 (fun _ : Fin 1 => (2 : ℝ)) 0 = 0) := by
  have hveq : (fun _ : Fin 1 => (2 : ℝ)) 0 = vecMax (fun _ : Fin 1 => (2 : ℝ)) := by
    show (2 : ℝ) = List.foldr max 0 (List.ofFn fun _ : Fin 1 => (2 : ℝ))
    rw [List.ofFn_succ]
    norm_num [List.ofFn_zero]
  obtain ⟨h1, h2, h3⟩ := exp_weighting_threshold 1 (fun _ : Fin 1 => (2 : ℝ))
  exact ⟨⟨hveq, by norm_num⟩, h1 3 0, h2 0, h3 0 hveq (by norm_num)⟩
